import Mathlib

/-!
Verification of the minpy autograd tutorial against a reconstruction of the
reverse-mode automatic differentiation core described in the specification.

The repository ships only the tutorial notebook
(`examples/tutorials/autograd_tutorial.ipynb`); the differentiation engine is
an external collaborator.  Following the specification we model:

* a tagged value abstraction (`TVal`): a concrete numeric value optionally
  carrying a back-reference to a trace `Node` (spec §3, §4.2, design note on
  dynamic operator interception);
* a trace recorder: primitive applications on traced operands append `Node`s
  to a growing node list, synthesizing trivial leaf nodes for plain operands
  (spec §4.3);
* a gradient engine: the backward pass walks the node list in strictly
  decreasing topological order accumulating adjoints (spec §4.4);
* the `grad` transform (spec §4.5).

The engine is polymorphic in the numeric carrier (`Ops α`), so a
grad-wrapped function is again a differentiable function and nested
differentiation (`grad (grad f)`) is expressible.  Scalars are modelled by
`ℚ`; array values by `Value` (a scalar or a list of rationals), with NumPy
broadcasting between scalars and arrays.
-/

namespace MinpyAD

/-- The registered primitives the tutorial relies on (spec §4.1): elementwise
addition, subtraction, multiplication, and raising to a constant natural
power.  `leaf` marks an input node with no recorded parents. -/
inductive Op where
  | leaf
  | addOp
  | subOp
  | mulOp
  | powOp (n : ℕ)
deriving DecidableEq

/-- A record in the computation graph (spec §3): the primitive that produced
the node, the ordered list of parent node indices, and the concrete forward
value.  A node's index in the trace list is its topological position. -/
structure Node (α : Type) where
  op : Op
  parents : List ℕ
  value : α
deriving DecidableEq

/-- The tagged variant of spec §9: a concrete value together with an optional
back-reference to the trace node that produced it (`none` = plain value). -/
structure TVal (α : Type) where
  val : α
  node : Option ℕ
deriving DecidableEq

/-- The capability interface of the numeric-array collaborator (spec §6, §9):
elementwise arithmetic, constant injection, and zero/one values of a given
value's shape. -/
structure Ops (α : Type) where
  add : α → α → α
  sub : α → α → α
  mul : α → α → α
  pow : α → ℕ → α
  ofRat : ℚ → α
  zeroLike : α → α
  onesLike : α → α

/-- A trace-recording computation: a function from the current node list to a
tagged result value and the extended node list.  This is the carrier on which
a wrapped function runs during the forward pass. -/
def TraceComp (α : Type) : Type := List (Node α) → TVal α × List (Node α)

/-- The traced root for the targeted argument: a tagged value pointing at
leaf node 0 (spec §4.5 step 1). -/
def varTC (x : α) : TraceComp α := fun s => (⟨x, some 0⟩, s)

/-- A plain (untraced) argument: a tagged value with no node reference. -/
def constTC (y : α) : TraceComp α := fun s => (⟨y, none⟩, s)

/-- Resolve a tagged operand to a node index, synthesizing a trivial leaf
node for a plain operand (spec §4.2(b)). -/
def ensureNode (ta : TVal α) (s : List (Node α)) : ℕ × List (Node α) :=
  match ta.node with
  | some i => (i, s)
  | none => (s.length, s ++ [⟨Op.leaf, [], ta.val⟩])

/-- Apply a binary primitive to tagged operands (spec §4.2): with no traced
operand the computation is ordinary numeric computation with no graph side
effects; otherwise the forward value is computed, a new node recording the
primitive and its operands is appended, and the result is traced. -/
def applyBin (ops : Ops α) (op : Op) (f : α → α → α) (ta tb : TVal α)
    (s : List (Node α)) : TVal α × List (Node α) :=
  if ta.node = none ∧ tb.node = none then (⟨f ta.val tb.val, none⟩, s)
  else
    (⟨f ta.val tb.val, some (ensureNode tb (ensureNode ta s).2).2.length⟩,
     (ensureNode tb (ensureNode ta s).2).2 ++
       [⟨op, [(ensureNode ta s).1, (ensureNode tb (ensureNode ta s).2).1],
         f ta.val tb.val⟩])

/-- Apply the power primitive (unary, with a constant natural exponent). -/
def applyPow (ops : Ops α) (n : ℕ) (ta : TVal α) (s : List (Node α)) :
    TVal α × List (Node α) :=
  match ta.node with
  | none => (⟨ops.pow ta.val n, none⟩, s)
  | some i =>
    (⟨ops.pow ta.val n, some s.length⟩, s ++ [⟨Op.powOp n, [i], ops.pow ta.val n⟩])

/-- The trace recorder: numeric operations lifted to trace-recording
computations (spec §4.2, §4.3).  Constants and shape-query results are plain
values. -/
def tracedOps (ops : Ops α) : Ops (TraceComp α) where
  add := fun ca cb s => applyBin ops Op.addOp ops.add (ca s).1 (cb (ca s).2).1 (cb (ca s).2).2
  sub := fun ca cb s => applyBin ops Op.subOp ops.sub (ca s).1 (cb (ca s).2).1 (cb (ca s).2).2
  mul := fun ca cb s => applyBin ops Op.mulOp ops.mul (ca s).1 (cb (ca s).2).1 (cb (ca s).2).2
  pow := fun ca n s => applyPow ops n (ca s).1 (ca s).2
  ofRat := fun q s => (⟨ops.ofRat q, none⟩, s)
  zeroLike := fun ca s => (⟨ops.zeroLike (ca s).1.val, none⟩, (ca s).2)
  onesLike := fun ca s => (⟨ops.onesLike (ca s).1.val, none⟩, (ca s).2)

/-- The forward value stored at a node index (out-of-range reads default to
the scalar zero; traces built by the recorder never read out of range). -/
def nodeValue (ops : Ops α) (nodes : List (Node α)) (i : ℕ) : α :=
  match nodes[i]? with
  | some nd => nd.value
  | none => ops.ofRat 0

/-- The derivative rules of the primitive registry (spec §3, §4.1): given the
incoming adjoint, each rule produces the vector-Jacobian contribution for one
parent, computed from the incoming adjoint and the parents' forward values. -/
def contribs (ops : Ops α) (nodes : List (Node α)) (nd : Node α) (a : α) :
    List (ℕ × α) :=
  match nd.op, nd.parents with
  | Op.addOp, [p, q] => [(p, a), (q, a)]
  | Op.subOp, [p, q] => [(p, a), (q, ops.sub (ops.zeroLike a) a)]
  | Op.mulOp, [p, q] =>
    [(p, ops.mul a (nodeValue ops nodes q)), (q, ops.mul a (nodeValue ops nodes p))]
  | Op.powOp n, [p] =>
    [(p, ops.mul (ops.mul a (ops.ofRat (n : ℚ))) (ops.pow (nodeValue ops nodes p) (n - 1)))]
  | _, _ => []

/-- Pointwise update of an adjoint store. -/
def upd (f : ℕ → α) (i : ℕ) (v : α) : ℕ → α := fun j => if j = i then v else f j

/-- Accumulate adjoint contributions into the parents' accumulators: each
contribution is added to (never overwrites) the accumulator (spec §4.4). -/
def accumulate (ops : Ops α) (adj : ℕ → α) : List (ℕ × α) → (ℕ → α)
  | [] => adj
  | (p, c) :: rest => accumulate ops (upd adj p (ops.add (adj p) c)) rest

/-- Process one node of the backward pass: fetch its derivative rules and add
the contribution for each parent into that parent's adjoint accumulator. -/
def stepNode (ops : Ops α) (nodes : List (Node α)) (i : ℕ) (adj : ℕ → α) : ℕ → α :=
  match nodes[i]? with
  | none => adj
  | some nd => accumulate ops adj (contribs ops nodes nd (adj i))

/-- Process the node indices `lo + n - 1, …, lo + 1, lo` in strictly
decreasing topological order (spec §4.4). -/
def steps (ops : Ops α) (nodes : List (Node α)) (lo : ℕ) : ℕ → (ℕ → α) → (ℕ → α)
  | 0, adj => adj
  | n + 1, adj => steps ops nodes lo n (stepNode ops nodes (lo + n) adj)

/-- The full backward pass: initialize the output node's adjoint to the seed,
walk the whole trace in reverse topological order, and return the adjoint
store. -/
def runBackward (ops : Ops α) (nodes : List (Node α)) (out : ℕ) (seed : α) : ℕ → α :=
  steps ops nodes 0 nodes.length (upd (fun _ => ops.ofRat 0) out seed)

/-- The `grad` transform (spec §4.5) for a one-argument function: run the
forward trace with the argument as traced root, and if the result is traced,
run the backward pass (seeded with the multiplicative identity of the output
value's shape) and return the adjoint of the targeted leaf; a result that is
not a traced value yields a zero-valued gradient of the argument's shape. -/
def gradF (F : (β : Type) → Ops β → β → β) : (α : Type) → Ops α → α → α :=
  fun α ops x =>
    let r := F (TraceComp α) (tracedOps ops) (varTC x) [⟨Op.leaf, [], x⟩]
    match r.1.node with
    | none => ops.zeroLike x
    | some o => runBackward ops r.2 o (ops.onesLike (nodeValue ops r.2 o)) 0

/-- The forward trace of a two-argument function differentiated with respect
to its first argument: the first argument is the traced root, the second is
left a plain value (spec §4.5 step 1). -/
def runForward2 (F : (β : Type) → Ops β → β → β → β) (α : Type) (ops : Ops α)
    (x y : α) : TVal α × List (Node α) :=
  F (TraceComp α) (tracedOps ops) (varTC x) (constTC y) [⟨Op.leaf, [], x⟩]

/-- The `grad` transform for a two-argument function, differentiating with
respect to the first argument. -/
def gradF2 (F : (β : Type) → Ops β → β → β → β) : (α : Type) → Ops α → α → α → α :=
  fun α ops x y =>
    let r := runForward2 F α ops x y
    match r.1.node with
    | none => ops.zeroLike x
    | some o => runBackward ops r.2 o (ops.onesLike (nodeValue ops r.2 o)) 0

/-- The `grad` transform for a wrapped function that may raise during forward
evaluation: the exception is propagated unchanged and the trace is discarded
(spec §4.5, §7). -/
def gradFE {ε : Type} (F : (β : Type) → Ops β → β → Except ε β) :
    (α : Type) → Ops α → α → Except ε α :=
  fun α ops x =>
    match F (TraceComp α) (tracedOps ops) (varTC x) with
    | Except.error e => Except.error e
    | Except.ok comp =>
      let r := comp [⟨Op.leaf, [], x⟩]
      Except.ok
        (match r.1.node with
         | none => ops.zeroLike x
         | some o => runBackward ops r.2 o (ops.onesLike (nodeValue ops r.2 o)) 0)

/-- The scalar numeric carrier: exact rational arithmetic. -/
def ratOps : Ops ℚ where
  add := fun a b => a + b
  sub := fun a b => a - b
  mul := fun a b => a * b
  pow := fun a n => a ^ n
  ofRat := fun q => q
  zeroLike := fun _ => 0
  onesLike := fun _ => 1

/-- A concrete array-library value: a scalar or a one-dimensional array. -/
inductive Value where
  | scalar : ℚ → Value
  | arr : List ℚ → Value
deriving DecidableEq

/-- Elementwise binary operation with NumPy scalar/array broadcasting. -/
def vmap2 (f : ℚ → ℚ → ℚ) : Value → Value → Value
  | Value.scalar a, Value.scalar b => Value.scalar (f a b)
  | Value.scalar a, Value.arr b => Value.arr (b.map (fun y => f a y))
  | Value.arr a, Value.scalar b => Value.arr (a.map (fun x => f x b))
  | Value.arr a, Value.arr b => Value.arr (List.zipWith f a b)

/-- The array-valued numeric carrier: elementwise rational arithmetic with
scalar broadcasting. -/
def valOps : Ops Value where
  add := vmap2 (fun a b => a + b)
  sub := vmap2 (fun a b => a - b)
  mul := vmap2 (fun a b => a * b)
  pow := fun v n =>
    match v with
    | Value.scalar a => Value.scalar (a ^ n)
    | Value.arr l => Value.arr (l.map (fun a => a ^ n))
  ofRat := Value.scalar
  zeroLike := fun v =>
    match v with
    | Value.scalar _ => Value.scalar 0
    | Value.arr l => Value.arr (l.map (fun _ => 0))
  onesLike := fun v =>
    match v with
    | Value.scalar _ => Value.scalar 1
    | Value.arr l => Value.arr (l.map (fun _ => 1))

/-- The error taxonomy of spec §7. -/
inductive EngineError where
  | unknownPrimitive
  | incompleteDerivative
  | nonScalarOutputWithoutSeed
  | argumentIndexError
deriving DecidableEq

/-- Modelled from the spec: `backward(trace, seed)` of spec §4.4 over array
values (the engine itself is not part of the repository's source).  The seed
is the adjoint assigned to the output node; for a true scalar output it
defaults to `1`; for a non-scalar output the caller must supply an explicit
seed or the engine fails with `NonScalarOutputWithoutSeed`. -/
def backwardE (nodes : List (Node Value)) (out : ℕ) (seed : Option Value) :
    Except EngineError (ℕ → Value) :=
  match seed with
  | some sd => Except.ok (runBackward valOps nodes out sd)
  | none =>
    match nodeValue valOps nodes out with
    | Value.scalar _ => Except.ok (runBackward valOps nodes out (Value.scalar 1))
    | Value.arr _ => Except.error EngineError.nonScalarOutputWithoutSeed

/-- The tutorial's squaring function `foo(x) = x**2`, written against the
numeric capability interface. -/
def fooF : (β : Type) → Ops β → β → β := fun _ ops x => ops.pow x 2

/-! ### Differentiable scalar functions

A differentiable scalar function, for the purpose of the algebraic claims, is
a function built from the registered primitives: the expression language
`AExp` with its evaluation into any numeric carrier. -/

/-- Scalar functions of one variable built from the registered primitives. -/
inductive AExp where
  | var
  | const (c : ℚ)
  | add (a b : AExp)
  | sub (a b : AExp)
  | mul (a b : AExp)
  | pow (a : AExp) (n : ℕ)

/-- Evaluate an expression over an arbitrary numeric carrier, so that the
resulting function can be fed to `gradF` (and traced). -/
def exprFun : AExp → (α : Type) → Ops α → α → α
  | AExp.var, _, _, x => x
  | AExp.const c, _, ops, _ => ops.ofRat c
  | AExp.add a b, α, ops, x => ops.add (exprFun a α ops x) (exprFun b α ops x)
  | AExp.sub a b, α, ops, x => ops.sub (exprFun a α ops x) (exprFun b α ops x)
  | AExp.mul a b, α, ops, x => ops.mul (exprFun a α ops x) (exprFun b α ops x)
  | AExp.pow a n, α, ops, x => ops.pow (exprFun a α ops x) n

/-- Plain numeric evaluation of an expression (no tracing). -/
def evalQ (e : AExp) (x : ℚ) : ℚ := exprFun e ℚ ratOps x

/-- The mathematical derivative of an expression. -/
def derivQ : AExp → ℚ → ℚ
  | AExp.var, _ => 1
  | AExp.const _, _ => 0
  | AExp.add a b, x => derivQ a x + derivQ b x
  | AExp.sub a b, x => derivQ a x - derivQ b x
  | AExp.mul a b, x => derivQ a x * evalQ b x + evalQ a x * derivQ b x
  | AExp.pow a n, x => (n : ℚ) * evalQ a x ^ (n - 1) * derivQ a x

/-- Substitution of an expression for the variable: the syntactic composition
`f ∘ g`. -/
def subst : AExp → AExp → AExp
  | AExp.var, g => g
  | AExp.const c, _ => AExp.const c
  | AExp.add a b, g => AExp.add (subst a g) (subst b g)
  | AExp.sub a b, g => AExp.sub (subst a g) (subst b g)
  | AExp.mul a b, g => AExp.mul (subst a g) (subst b g)
  | AExp.pow a n, g => AExp.pow (subst a g) n

theorem exprFun_subst (f g : AExp) (α : Type) (ops : Ops α) (x : α) :
    exprFun (subst f g) α ops x = exprFun f α ops (exprFun g α ops x) := by
  induction f <;> simp [subst, exprFun, *]

theorem derivQ_subst (f g : AExp) (x : ℚ) :
    derivQ (subst f g) x = derivQ f (evalQ g x) * derivQ g x := by
  induction f <;>
    simp [subst, derivQ, evalQ, exprFun_subst, exprFun, *] <;> ring

/-! ### Correctness of the trace-based engine on scalar expressions -/

/-- The forward trace of an expression against the trace recorder, with the
variable bound to the traced root at leaf node 0. -/
def traceE (e : AExp) (x : ℚ) : TraceComp ℚ :=
  exprFun e (TraceComp ℚ) (tracedOps ratOps) (varTC x)

/-- Short form of the stored forward value at a node, scalar carrier. -/
def nvQ (s : List (Node ℚ)) (i : ℕ) : ℚ := nodeValue ratOps s i

/-- Short form of a backward-sweep segment over the scalar carrier. -/
def stepsQ (S : List (Node ℚ)) (lo n : ℕ) (adj : ℕ → ℚ) : ℕ → ℚ :=
  steps ratOps S lo n adj

/-- Add `c` into slot `p` of an adjoint store (accumulate, not overwrite). -/
def bumpQ (f : ℕ → ℚ) (p : ℕ) (c : ℚ) : ℕ → ℚ := upd f p (f p + c)

/-- `s'` extends `s` on the left: the trace recorder only appends nodes. -/
def extendsL (s s' : List (Node ℚ)) : Prop := ∃ ext, s' = s ++ ext

theorem extendsL_refl (s : List (Node ℚ)) : extendsL s s := ⟨[], by simp⟩

theorem extendsL_trans {s t u : List (Node ℚ)} (h1 : extendsL s t)
    (h2 : extendsL t u) : extendsL s u := by
  obtain ⟨e1, rfl⟩ := h1
  obtain ⟨e2, rfl⟩ := h2
  exact ⟨e1 ++ e2, by simp⟩

theorem extendsL_length {s s' : List (Node ℚ)} (h : extendsL s s') :
    s.length ≤ s'.length := by
  obtain ⟨ext, rfl⟩ := h
  simp

theorem nvQ_mono {s s' : List (Node ℚ)} (h : extendsL s s') {i : ℕ}
    (hi : i < s.length) : nvQ s' i = nvQ s i := by
  obtain ⟨ext, rfl⟩ := h
  simp [nvQ, nodeValue, List.getElem?_append_left hi]

theorem bumpQ_same (f : ℕ → ℚ) (p : ℕ) (c : ℚ) : bumpQ f p c p = f p + c := by
  simp [bumpQ, upd]

theorem bumpQ_other (f : ℕ → ℚ) (p : ℕ) (c : ℚ) {j : ℕ} (h : j ≠ p) :
    bumpQ f p c j = f j := by
  simp [bumpQ, upd, h]

/-- Present an arbitrary adjoint store as a bump at a chosen slot, so that a
`backOK` induction hypothesis applies to it. -/
theorem eq_bumpQ_of (A : ℕ → ℚ) (o : ℕ) (c : ℚ) :
    A = bumpQ (fun j => if j = o then A o - c else A j) o c := by
  funext j
  by_cases h : j = o <;> simp [bumpQ, upd, h]

theorem accumQ_cons (adj : ℕ → ℚ) (p : ℕ) (c : ℚ) (rest : List (ℕ × ℚ)) :
    accumulate ratOps adj ((p, c) :: rest) = accumulate ratOps (bumpQ adj p c) rest :=
  rfl

theorem steps_split (ops : Ops α) (S : List (Node α)) (lo a b : ℕ) (adj : ℕ → α) :
    steps ops S lo (a + b) adj = steps ops S lo a (steps ops S (lo + a) b adj) := by
  induction b generalizing adj with
  | zero => simp [steps]
  | succ b ih =>
    have h : a + (b + 1) = (a + b) + 1 := by omega
    have h2 : lo + (a + b) = (lo + a) + b := by omega
    rw [h]
    show steps ops S lo (a + b) (stepNode ops S (lo + (a + b)) adj) = _
    rw [ih, h2]
    rfl

theorem stepsQ_one (S : List (Node ℚ)) (lo : ℕ) (adj : ℕ → ℚ) :
    stepsQ S lo 1 adj = stepNode ratOps S lo adj := by
  simp [stepsQ, steps]

theorem stepNode_of_get (S : List (Node ℚ)) (i : ℕ) (nd : Node ℚ)
    (h : S[i]? = some nd) (adj : ℕ → ℚ) :
    stepNode ratOps S i adj = accumulate ratOps adj (contribs ratOps S nd (adj i)) := by
  simp [stepNode, h]

theorem stepNode_leaf (S : List (Node ℚ)) (i : ℕ) (v : ℚ)
    (h : S[i]? = some ⟨Op.leaf, [], v⟩) (adj : ℕ → ℚ) :
    stepNode ratOps S i adj = adj := by
  rw [stepNode_of_get S i _ h]
  rfl

theorem getElem?_mid (s l rest : List (Node ℚ)) (j : ℕ) (hj : j < l.length) :
    (s ++ l ++ rest)[s.length + j]? = l[j]? := by
  rw [List.append_assoc, List.getElem?_append_right (by omega)]
  simp only [Nat.add_sub_cancel_left]
  rw [List.getElem?_append_left hj]

theorem nvQ_mid (s l rest : List (Node ℚ)) (j : ℕ) (hj : j < l.length) :
    nvQ (s ++ l ++ rest) (s.length + j) = nvQ l j := by
  simp only [nvQ, nodeValue, getElem?_mid s l rest j hj]

theorem stepsQ_split (S : List (Node ℚ)) (lo a b : ℕ) (adj : ℕ → ℚ) :
    stepsQ S lo (a + b) adj = stepsQ S lo a (stepsQ S (lo + a) b adj) :=
  steps_split ratOps S lo a b adj

theorem stepsQ_two (S : List (Node ℚ)) (lo : ℕ) (adj : ℕ → ℚ) :
    stepsQ S lo 2 adj = stepNode ratOps S lo (stepNode ratOps S (lo + 1) adj) := by
  simp [stepsQ, steps]

/-- The compositional correctness property of one backward-sweep segment:
running the backward pass over the node range the trace of a subexpression
occupies, starting from an adjoint store that is zero on that range and seeds
the subexpression's output node with `k`, adds `k` times the subexpression's
derivative into the adjoint accumulator of leaf 0 and leaves every other
older slot unchanged. -/
def backOK (s s' : List (Node ℚ)) (o : ℕ) (d : ℚ) : Prop :=
  ∀ (S : List (Node ℚ)) (adj : ℕ → ℚ) (k : ℚ), extendsL s' S →
    (∀ j, s.length ≤ j → j < s'.length → adj j = 0) →
    (∀ j, j < s.length → j ≠ 0 →
      stepsQ S s.length (s'.length - s.length) (bumpQ adj o k) j = adj j) ∧
    stepsQ S s.length (s'.length - s.length) (bumpQ adj o k) 0 = adj 0 + k * d

/-- The full induction invariant for the forward trace of a subexpression:
the traced result carries the right forward value; the recorder only appends;
and either the result is a plain value (then the state is untouched and the
derivative is zero) or it is traced, its node holds the forward value, and
the backward sweep over the appended segment behaves as `backOK` states. -/
def PairSpec (ev dv : ℚ) (s : List (Node ℚ)) (r : TVal ℚ × List (Node ℚ)) : Prop :=
  r.1.val = ev ∧ extendsL s r.2 ∧
  ((r.1.node = none ∧ r.2 = s ∧ dv = 0) ∨
   (∃ o, r.1.node = some o ∧ (o = 0 ∨ s.length ≤ o) ∧ o < r.2.length ∧
     nvQ r.2 o = ev ∧ backOK s r.2 o dv))

/-- Apply a `backOK` segment fact to an arbitrary incoming adjoint store that
is zero on the segment's range except for the seed sitting at the output
node. -/
theorem backOK_use {s s' : List (Node ℚ)} {o : ℕ} {d : ℚ}
    (bk : backOK s s' o d) (S : List (Node ℚ)) (A : ℕ → ℚ) (c : ℚ)
    (hext : extendsL s' S)
    (hAreg : ∀ j, s.length ≤ j → j < s'.length → j ≠ o → A j = 0)
    (hAo : s.length ≤ o → o < s'.length → A o = c) :
    (∀ j, j < s.length → j ≠ 0 → j ≠ o →
      stepsQ S s.length (s'.length - s.length) A j = A j) ∧
    stepsQ S s.length (s'.length - s.length) A 0 =
      (if 0 = o then A o - c else A 0) + c * d := by
  have hbump : A = bumpQ (fun j => if j = o then A o - c else A j) o c :=
    eq_bumpQ_of A o c
  have hadj : ∀ j, s.length ≤ j → j < s'.length →
      (fun j => if j = o then A o - c else A j) j = 0 := by
    intro j h1 h2
    simp only
    by_cases hj : j = o
    · rw [if_pos hj, hAo (hj ▸ h1) (hj ▸ h2)]
      ring
    · rw [if_neg hj]
      exact hAreg j h1 h2 hj
  obtain ⟨hi, hii⟩ := bk S (fun j => if j = o then A o - c else A j) c hext hadj
  rw [← hbump] at hi hii
  refine ⟨fun j h1 h2 h3 => ?_, ?_⟩
  · rw [hi j h1 h2, if_neg h3]
  · rw [hii]

theorem nvQ_of_get {S : List (Node ℚ)} {i : ℕ} {nd : Node ℚ}
    (h : S[i]? = some nd) : nvQ S i = nd.value := by
  simp [nvQ, nodeValue, h]

theorem getElem?_append_len (s : List (Node ℚ)) (nd : Node ℚ) (l : List (Node ℚ)) :
    (s ++ (nd :: l))[s.length]? = some nd := by
  rw [List.getElem?_append_right (le_refl _)]
  simp

theorem getElem?_append_len1 (s : List (Node ℚ)) (a b : Node ℚ) (l : List (Node ℚ)) :
    (s ++ (a :: b :: l))[s.length + 1]? = some b := by
  rw [List.getElem?_append_right (by omega)]
  simp

/-- Correctness of one binary primitive application: if the two operand
computations satisfy the trace invariant, so does the result of recording the
binary primitive on them, for any primitive whose two derivative rules are
the functions `cA`, `cB` of the incoming adjoint and the parents' forward
values, and whose rules satisfy the derivative identity `hd`. -/
theorem bin_spec (ea eb da db ev dv : ℚ) (op : Op) (f : ℚ → ℚ → ℚ)
    (cA cB : ℚ → ℚ → ℚ → ℚ)
    (hcon : ∀ (S : List (Node ℚ)) (p q : ℕ) (v k : ℚ),
      contribs ratOps S ⟨op, [p, q], v⟩ k =
        [(p, cA k (nvQ S p) (nvQ S q)), (q, cB k (nvQ S p) (nvQ S q))])
    (hd : ∀ k : ℚ, cA k ea eb * da + cB k ea eb * db = k * dv)
    (hf : f ea eb = ev)
    (s : List (Node ℚ)) (hs : 0 < s.length)
    (ra : TVal ℚ × List (Node ℚ)) (ha : PairSpec ea da s ra)
    (rb : TVal ℚ × List (Node ℚ)) (hb : PairSpec eb db ra.2 rb) :
    PairSpec ev dv s (applyBin ratOps op f ra.1 rb.1 rb.2) := by
  obtain ⟨ta, s1⟩ := ra
  obtain ⟨tb, s2⟩ := rb
  simp only at ha hb ⊢
  obtain ⟨ha1, ha2, ha3⟩ := ha
  obtain ⟨hb1, hb2, hb3⟩ := hb
  simp only at ha1 ha2 ha3 hb1 hb2 hb3
  unfold PairSpec
  rcases ha3 with ⟨haN, haS, haD⟩ | ⟨oa, haN, haB, haLt, haV, bka⟩ <;>
    rcases hb3 with ⟨hbN, hbS, hbD⟩ | ⟨ob, hbN, hbB, hbLt, hbV, bkb⟩
  · -- both operands plain: ordinary numeric computation, no graph effect
    have happ : applyBin ratOps op f ta tb s2 = (⟨f ta.val tb.val, none⟩, s2) := by
      simp [applyBin, haN, hbN]
    rw [happ, hbS, haS]
    refine ⟨by rw [ha1, hb1, hf], extendsL_refl s, Or.inl ⟨rfl, rfl, ?_⟩⟩
    have h0 := hd 1
    rw [haD, hbD] at h0
    linarith [h0]
  · -- first operand plain, second traced: synthesize a leaf for the first
    rw [haS] at hb2 hbB bkb
    have happ : applyBin ratOps op f ta tb s2 =
        (⟨f ta.val tb.val, some (s2.length + 1)⟩,
         s2 ++ [⟨Op.leaf, [], ta.val⟩, ⟨op, [s2.length, ob], f ta.val tb.val⟩]) := by
      simp [applyBin, ensureNode, haN, hbN]
    rw [happ]
    have hle2 : s.length ≤ s2.length := extendsL_length hb2
    refine ⟨by rw [ha1, hb1, hf], ?_, Or.inr ⟨s2.length + 1, rfl, ?_, ?_, ?_, ?_⟩⟩
    · exact extendsL_trans hb2 ⟨_, rfl⟩
    · right; omega
    · simp
    · rw [nvQ_of_get (getElem?_append_len1 s2 _ _ [])]
      rw [ha1, hb1, hf]
    · -- backward sweep over the two new nodes, then the second operand's range
      intro S adj k hext hadj
      obtain ⟨rest, hS⟩ := hext
      have hlen : (s2 ++ [(⟨Op.leaf, [], ta.val⟩ : Node ℚ),
          ⟨op, [s2.length, ob], f ta.val tb.val⟩]).length = s2.length + 2 := by simp
      rw [hlen] at hadj ⊢
      have hSassoc : S = s2 ++ ((⟨Op.leaf, [], ta.val⟩ : Node ℚ) ::
          ⟨op, [s2.length, ob], f ta.val tb.val⟩ :: rest) := by
        rw [hS]; simp
      have hgetBin : S[s2.length + 1]? =
          some ⟨op, [s2.length, ob], f ta.val tb.val⟩ := by
        rw [hSassoc]; exact getElem?_append_len1 s2 _ _ rest
      have hgetLeaf : S[s2.length]? = some ⟨Op.leaf, [], ta.val⟩ := by
        rw [hSassoc]; exact getElem?_append_len s2 _ _
      have hextb : extendsL s2 S := ⟨_, hSassoc⟩
      have hva : nvQ S s2.length = ea := by rw [nvQ_of_get hgetLeaf]; exact ha1
      have hvb : nvQ S ob = eb := by rw [nvQ_mono hextb hbLt]; exact hbV
      have hΔ : s2.length + 2 - s.length = (s2.length - s.length) + 2 := by omega
      rw [hΔ, stepsQ_split S s.length _ 2]
      have he1 : s.length + (s2.length - s.length) = s2.length := by omega
      rw [he1, stepsQ_two]
      -- process the freshly recorded primitive node
      have hstep1 : stepNode ratOps S (s2.length + 1)
          (bumpQ adj (s2.length + 1) k) =
          bumpQ (bumpQ (bumpQ adj (s2.length + 1) k) s2.length (cA k ea eb))
            ob (cB k ea eb) := by
        rw [stepNode_of_get S _ _ hgetBin, bumpQ_same,
          hadj (s2.length + 1) (by omega) (by omega), zero_add,
          hcon S s2.length ob _ k, hva, hvb, accumQ_cons, accumQ_cons]
        rfl
      rw [hstep1]
      -- process the synthesized leaf (no derivative rules)
      rw [stepNode_leaf S s2.length ta.val hgetLeaf]
      -- sweep the second operand's range
      have hAreg : ∀ j, s.length ≤ j → j < s2.length → j ≠ ob →
          bumpQ (bumpQ (bumpQ adj (s2.length + 1) k) s2.length (cA k ea eb))
            ob (cB k ea eb) j = 0 := by
        intro j h1 h2 h3
        rw [bumpQ_other _ _ _ h3, bumpQ_other _ _ _ (by omega : j ≠ s2.length),
          bumpQ_other _ _ _ (by omega : j ≠ s2.length + 1)]
        exact hadj j h1 (by omega)
      have hAo : s.length ≤ ob → ob < s2.length →
          bumpQ (bumpQ (bumpQ adj (s2.length + 1) k) s2.length (cA k ea eb))
            ob (cB k ea eb) ob = cB k ea eb := by
        intro h1 h2
        rw [bumpQ_same, bumpQ_other _ _ _ (by omega : ob ≠ s2.length),
          bumpQ_other _ _ _ (by omega : ob ≠ s2.length + 1),
          hadj ob h1 (by omega)]
        ring
      obtain ⟨hib, hiib⟩ := backOK_use bkb S _ (cB k ea eb) hextb hAreg hAo
      constructor
      · intro j h1 h2
        rw [hib j h1 h2 (by rcases hbB with h | h <;> omega),
          bumpQ_other _ _ _ (by rcases hbB with h | h <;> omega : j ≠ ob),
          bumpQ_other _ _ _ (by omega : j ≠ s2.length),
          bumpQ_other _ _ _ (by omega : j ≠ s2.length + 1)]
      · rw [hiib]
        have h0 := hd k
        rw [haD] at h0
        rcases hbB with rfl | hbge
        · rw [if_pos rfl, bumpQ_same,
            bumpQ_other _ _ _ (by omega : (0:ℕ) ≠ s2.length),
            bumpQ_other _ _ _ (by omega : (0:ℕ) ≠ s2.length + 1)]
          linarith [h0]
        · have hne : (0:ℕ) ≠ ob := by omega
          rw [if_neg hne, bumpQ_other _ _ _ hne,
            bumpQ_other _ _ _ (by omega : (0:ℕ) ≠ s2.length),
            bumpQ_other _ _ _ (by omega : (0:ℕ) ≠ s2.length + 1)]
          linarith [h0]
  · -- first operand traced, second plain: synthesize a leaf for the second
    rw [hbS]
    have happ : applyBin ratOps op f ta tb s1 =
        (⟨f ta.val tb.val, some (s1.length + 1)⟩,
         s1 ++ [⟨Op.leaf, [], tb.val⟩, ⟨op, [oa, s1.length], f ta.val tb.val⟩]) := by
      simp [applyBin, ensureNode, haN, hbN]
    rw [happ]
    have hle1 : s.length ≤ s1.length := extendsL_length ha2
    refine ⟨by rw [ha1, hb1, hf], ?_, Or.inr ⟨s1.length + 1, rfl, ?_, ?_, ?_, ?_⟩⟩
    · exact extendsL_trans ha2 ⟨_, rfl⟩
    · right; omega
    · simp
    · rw [nvQ_of_get (getElem?_append_len1 s1 _ _ [])]
      rw [ha1, hb1, hf]
    · intro S adj k hext hadj
      obtain ⟨rest, hS⟩ := hext
      have hlen : (s1 ++ [(⟨Op.leaf, [], tb.val⟩ : Node ℚ),
          ⟨op, [oa, s1.length], f ta.val tb.val⟩]).length = s1.length + 2 := by simp
      rw [hlen] at hadj ⊢
      have hSassoc : S = s1 ++ ((⟨Op.leaf, [], tb.val⟩ : Node ℚ) ::
          ⟨op, [oa, s1.length], f ta.val tb.val⟩ :: rest) := by
        rw [hS]; simp
      have hgetBin : S[s1.length + 1]? =
          some ⟨op, [oa, s1.length], f ta.val tb.val⟩ := by
        rw [hSassoc]; exact getElem?_append_len1 s1 _ _ rest
      have hgetLeaf : S[s1.length]? = some ⟨Op.leaf, [], tb.val⟩ := by
        rw [hSassoc]; exact getElem?_append_len s1 _ _
      have hexta : extendsL s1 S := ⟨_, hSassoc⟩
      have hva : nvQ S oa = ea := by rw [nvQ_mono hexta haLt]; exact haV
      have hvb : nvQ S s1.length = eb := by rw [nvQ_of_get hgetLeaf]; exact hb1
      have hΔ : s1.length + 2 - s.length = (s1.length - s.length) + 2 := by omega
      rw [hΔ, stepsQ_split S s.length _ 2]
      have he1 : s.length + (s1.length - s.length) = s1.length := by omega
      rw [he1, stepsQ_two]
      have hstep1 : stepNode ratOps S (s1.length + 1)
          (bumpQ adj (s1.length + 1) k) =
          bumpQ (bumpQ (bumpQ adj (s1.length + 1) k) oa (cA k ea eb))
            s1.length (cB k ea eb) := by
        rw [stepNode_of_get S _ _ hgetBin, bumpQ_same,
          hadj (s1.length + 1) (by omega) (by omega), zero_add,
          hcon S oa s1.length _ k, hva, hvb, accumQ_cons, accumQ_cons]
        rfl
      rw [hstep1]
      rw [stepNode_leaf S s1.length tb.val hgetLeaf]
      have hAreg : ∀ j, s.length ≤ j → j < s1.length → j ≠ oa →
          bumpQ (bumpQ (bumpQ adj (s1.length + 1) k) oa (cA k ea eb))
            s1.length (cB k ea eb) j = 0 := by
        intro j h1 h2 h3
        rw [bumpQ_other _ _ _ (by omega : j ≠ s1.length), bumpQ_other _ _ _ h3,
          bumpQ_other _ _ _ (by omega : j ≠ s1.length + 1)]
        exact hadj j h1 (by omega)
      have hAo : s.length ≤ oa → oa < s1.length →
          bumpQ (bumpQ (bumpQ adj (s1.length + 1) k) oa (cA k ea eb))
            s1.length (cB k ea eb) oa = cA k ea eb := by
        intro h1 h2
        rw [bumpQ_other _ _ _ (by omega : oa ≠ s1.length), bumpQ_same,
          bumpQ_other _ _ _ (by omega : oa ≠ s1.length + 1),
          hadj oa h1 (by omega)]
        ring
      obtain ⟨hia, hiia⟩ := backOK_use bka S _ (cA k ea eb) hexta hAreg hAo
      constructor
      · intro j h1 h2
        rw [hia j h1 h2 (by rcases haB with h | h <;> omega),
          bumpQ_other _ _ _ (by omega : j ≠ s1.length),
          bumpQ_other _ _ _ (by rcases haB with h | h <;> omega : j ≠ oa),
          bumpQ_other _ _ _ (by omega : j ≠ s1.length + 1)]
      · rw [hiia]
        have h0 := hd k
        rw [hbD] at h0
        rcases haB with rfl | hage
        · rw [if_pos rfl, bumpQ_other _ _ _ (by omega : (0:ℕ) ≠ s1.length),
            bumpQ_same,
            bumpQ_other _ _ _ (by omega : (0:ℕ) ≠ s1.length + 1)]
          linarith [h0]
        · have hne : (0:ℕ) ≠ oa := by omega
          rw [if_neg hne, bumpQ_other _ _ _ (by omega : (0:ℕ) ≠ s1.length),
            bumpQ_other _ _ _ hne,
            bumpQ_other _ _ _ (by omega : (0:ℕ) ≠ s1.length + 1)]
          linarith [h0]
  · -- both operands traced
    have happ : applyBin ratOps op f ta tb s2 =
        (⟨f ta.val tb.val, some s2.length⟩,
         s2 ++ [⟨op, [oa, ob], f ta.val tb.val⟩]) := by
      simp [applyBin, ensureNode, haN, hbN]
    rw [happ]
    have hle1 : s.length ≤ s1.length := extendsL_length ha2
    have hle2 : s1.length ≤ s2.length := extendsL_length hb2
    refine ⟨by rw [ha1, hb1, hf], ?_, Or.inr ⟨s2.length, rfl, ?_, ?_, ?_, ?_⟩⟩
    · exact extendsL_trans ha2 (extendsL_trans hb2 ⟨_, rfl⟩)
    · right; omega
    · simp
    · rw [nvQ_of_get (getElem?_append_len s2 _ [])]
      rw [ha1, hb1, hf]
    · intro S adj k hext hadj
      obtain ⟨rest, hS⟩ := hext
      have hlen : (s2 ++ [(⟨op, [oa, ob], f ta.val tb.val⟩ : Node ℚ)]).length
          = s2.length + 1 := by simp
      rw [hlen] at hadj ⊢
      have hSassoc : S = s2 ++ ((⟨op, [oa, ob], f ta.val tb.val⟩ : Node ℚ) :: rest) := by
        rw [hS]; simp
      have hgetBin : S[s2.length]? = some ⟨op, [oa, ob], f ta.val tb.val⟩ := by
        rw [hSassoc]; exact getElem?_append_len s2 _ _
      have hextb : extendsL s2 S := ⟨_, hSassoc⟩
      have hexta : extendsL s1 S := extendsL_trans hb2 hextb
      have hva : nvQ S oa = ea := by rw [nvQ_mono hexta haLt]; exact haV
      have hvb : nvQ S ob = eb := by rw [nvQ_mono hextb hbLt]; exact hbV
      have hΔ : s2.length + 1 - s.length =
          (s1.length - s.length) + ((s2.length - s1.length) + 1) := by omega
      rw [hΔ, stepsQ_split S s.length _ _]
      have he1 : s.length + (s1.length - s.length) = s1.length := by omega
      rw [he1, stepsQ_split S s1.length _ 1]
      have he2 : s1.length + (s2.length - s1.length) = s2.length := by omega
      rw [he2, stepsQ_one]
      have hstep1 : stepNode ratOps S s2.length (bumpQ adj s2.length k) =
          bumpQ (bumpQ (bumpQ adj s2.length k) oa (cA k ea eb))
            ob (cB k ea eb) := by
        rw [stepNode_of_get S _ _ hgetBin, bumpQ_same,
          hadj s2.length (by omega) (by omega), zero_add,
          hcon S oa ob _ k, hva, hvb, accumQ_cons, accumQ_cons]
        rfl
      rw [hstep1]
      -- sweep the second operand's range
      have hAregb : ∀ j, s1.length ≤ j → j < s2.length → j ≠ ob →
          bumpQ (bumpQ (bumpQ adj s2.length k) oa (cA k ea eb))
            ob (cB k ea eb) j = 0 := by
        intro j h1 h2 h3
        rw [bumpQ_other _ _ _ h3, bumpQ_other _ _ _ (by omega : j ≠ oa),
          bumpQ_other _ _ _ (by omega : j ≠ s2.length)]
        exact hadj j (by omega) (by omega)
      have hAob : s1.length ≤ ob → ob < s2.length →
          bumpQ (bumpQ (bumpQ adj s2.length k) oa (cA k ea eb))
            ob (cB k ea eb) ob = cB k ea eb := by
        intro h1 h2
        rw [bumpQ_same, bumpQ_other _ _ _ (by omega : ob ≠ oa),
          bumpQ_other _ _ _ (by omega : ob ≠ s2.length),
          hadj ob (by omega) (by omega)]
        ring
      obtain ⟨hib, hiib⟩ := backOK_use bkb S _ (cB k ea eb) hextb hAregb hAob
      -- sweep the first operand's range
      have hArega : ∀ j, s.length ≤ j → j < s1.length → j ≠ oa →
          stepsQ S s1.length (s2.length - s1.length)
            (bumpQ (bumpQ (bumpQ adj s2.length k) oa (cA k ea eb))
              ob (cB k ea eb)) j = 0 := by
        intro j h1 h2 h3
        rw [hib j h2 (by omega) (by rcases hbB with h | h <;> omega),
          bumpQ_other _ _ _ (by rcases hbB with h | h <;> omega : j ≠ ob),
          bumpQ_other _ _ _ h3, bumpQ_other _ _ _ (by omega : j ≠ s2.length)]
        exact hadj j h1 (by omega)
      have hAoa : s.length ≤ oa → oa < s1.length →
          stepsQ S s1.length (s2.length - s1.length)
            (bumpQ (bumpQ (bumpQ adj s2.length k) oa (cA k ea eb))
              ob (cB k ea eb)) oa = cA k ea eb := by
        intro h1 h2
        rw [hib oa h2 (by omega) (by rcases hbB with h | h <;> omega),
          bumpQ_other _ _ _ (by rcases hbB with h | h <;> omega : oa ≠ ob),
          bumpQ_same, bumpQ_other _ _ _ (by omega : oa ≠ s2.length),
          hadj oa h1 (by omega)]
        ring
      obtain ⟨hia, hiia⟩ := backOK_use bka S _ (cA k ea eb) hexta hArega hAoa
      constructor
      · intro j h1 h2
        rw [hia j h1 h2 (by rcases haB with h | h <;> omega),
          hib j (by omega) h2 (by rcases hbB with h | h <;> omega),
          bumpQ_other _ _ _ (by rcases hbB with h | h <;> omega : j ≠ ob),
          bumpQ_other _ _ _ (by rcases haB with h | h <;> omega : j ≠ oa),
          bumpQ_other _ _ _ (by omega : j ≠ s2.length)]
      · rw [hiia]
        have h0 := hd k
        rcases haB with rfl | hage
        · rw [if_pos rfl, hiib]
          rcases hbB with rfl | hbge
          · rw [if_pos rfl, bumpQ_same, bumpQ_same,
              bumpQ_other _ _ _ (by omega : (0:ℕ) ≠ s2.length)]
            linarith [h0]
          · have hne : (0:ℕ) ≠ ob := by omega
            rw [if_neg hne, bumpQ_other _ _ _ hne, bumpQ_same,
              bumpQ_other _ _ _ (by omega : (0:ℕ) ≠ s2.length)]
            linarith [h0]
        · have hnea : (0:ℕ) ≠ oa := by omega
          rw [if_neg hnea, hiib]
          rcases hbB with rfl | hbge
          · rw [if_pos rfl, bumpQ_same, bumpQ_other _ _ _ hnea,
              bumpQ_other _ _ _ (by omega : (0:ℕ) ≠ s2.length)]
            linarith [h0]
          · have hneb : (0:ℕ) ≠ ob := by omega
            rw [if_neg hneb, bumpQ_other _ _ _ hneb, bumpQ_other _ _ _ hnea,
              bumpQ_other _ _ _ (by omega : (0:ℕ) ≠ s2.length)]
            linarith [h0]

/-- Correctness of one power-primitive application (the unary analogue of
`bin_spec`). -/
theorem pow_spec (ea da ev dv : ℚ) (n : ℕ)
    (hf : ea ^ n = ev) (hdeq : (n : ℚ) * ea ^ (n - 1) * da = dv)
    (s : List (Node ℚ)) (hs : 0 < s.length)
    (ra : TVal ℚ × List (Node ℚ)) (ha : PairSpec ea da s ra) :
    PairSpec ev dv s (applyPow ratOps n ra.1 ra.2) := by
  obtain ⟨ta, s1⟩ := ra
  simp only at ha ⊢
  obtain ⟨ha1, ha2, ha3⟩ := ha
  simp only at ha1 ha2 ha3
  unfold PairSpec
  rcases ha3 with ⟨haN, haS, haD⟩ | ⟨oa, haN, haB, haLt, haV, bka⟩
  · have happ : applyPow ratOps n ta s1 = (⟨ta.val ^ n, none⟩, s1) := by
      simp [applyPow, haN, ratOps]
    rw [happ, haS]
    refine ⟨by rw [ha1, hf], extendsL_refl s, Or.inl ⟨rfl, rfl, ?_⟩⟩
    rw [haD] at hdeq
    linarith [hdeq]
  · have happ : applyPow ratOps n ta s1 =
        (⟨ta.val ^ n, some s1.length⟩,
         s1 ++ [⟨Op.powOp n, [oa], ta.val ^ n⟩]) := by
      simp [applyPow, haN, ratOps]
    rw [happ]
    have hle1 : s.length ≤ s1.length := extendsL_length ha2
    refine ⟨by rw [ha1, hf], ?_, Or.inr ⟨s1.length, rfl, ?_, ?_, ?_, ?_⟩⟩
    · exact extendsL_trans ha2 ⟨_, rfl⟩
    · right; omega
    · simp
    · rw [nvQ_of_get (getElem?_append_len s1 _ [])]
      rw [ha1, hf]
    · intro S adj k hext hadj
      obtain ⟨rest, hS⟩ := hext
      have hlen : (s1 ++ [(⟨Op.powOp n, [oa], ta.val ^ n⟩ : Node ℚ)]).length
          = s1.length + 1 := by simp
      rw [hlen] at hadj ⊢
      have hSassoc : S = s1 ++ ((⟨Op.powOp n, [oa], ta.val ^ n⟩ : Node ℚ) :: rest) := by
        rw [hS]; simp
      have hgetP : S[s1.length]? = some ⟨Op.powOp n, [oa], ta.val ^ n⟩ := by
        rw [hSassoc]; exact getElem?_append_len s1 _ _
      have hexta : extendsL s1 S := ⟨_, hSassoc⟩
      have hva : nvQ S oa = ea := by rw [nvQ_mono hexta haLt]; exact haV
      have hΔ : s1.length + 1 - s.length = (s1.length - s.length) + 1 := by omega
      rw [hΔ, stepsQ_split S s.length _ 1]
      have he1 : s.length + (s1.length - s.length) = s1.length := by omega
      rw [he1, stepsQ_one]
      have hstep1 : stepNode ratOps S s1.length (bumpQ adj s1.length k) =
          bumpQ (bumpQ adj s1.length k) oa (k * (n : ℚ) * ea ^ (n - 1)) := by
        rw [stepNode_of_get S _ _ hgetP, bumpQ_same,
          hadj s1.length (by omega) (by omega), zero_add]
        have hconp : contribs ratOps S (⟨Op.powOp n, [oa], ta.val ^ n⟩ : Node ℚ) k
            = [(oa, k * (n : ℚ) * nvQ S oa ^ (n - 1))] := rfl
        rw [hconp, hva, accumQ_cons]
        rfl
      rw [hstep1]
      have hAreg : ∀ j, s.length ≤ j → j < s1.length → j ≠ oa →
          bumpQ (bumpQ adj s1.length k) oa (k * (n : ℚ) * ea ^ (n - 1)) j = 0 := by
        intro j h1 h2 h3
        rw [bumpQ_other _ _ _ h3, bumpQ_other _ _ _ (by omega : j ≠ s1.length)]
        exact hadj j h1 (by omega)
      have hAo : s.length ≤ oa → oa < s1.length →
          bumpQ (bumpQ adj s1.length k) oa (k * (n : ℚ) * ea ^ (n - 1)) oa
            = k * (n : ℚ) * ea ^ (n - 1) := by
        intro h1 h2
        rw [bumpQ_same, bumpQ_other _ _ _ (by omega : oa ≠ s1.length),
          hadj oa h1 (by omega)]
        ring
      obtain ⟨hia, hiia⟩ :=
        backOK_use bka S _ (k * (n : ℚ) * ea ^ (n - 1)) hexta hAreg hAo
      constructor
      · intro j h1 h2
        rw [hia j h1 h2 (by rcases haB with h | h <;> omega),
          bumpQ_other _ _ _ (by rcases haB with h | h <;> omega : j ≠ oa),
          bumpQ_other _ _ _ (by omega : j ≠ s1.length)]
      · rw [hiia]
        rcases haB with rfl | hage
        · rw [if_pos rfl, bumpQ_same,
            bumpQ_other _ _ _ (by omega : (0:ℕ) ≠ s1.length)]
          linear_combination k * hdeq
        · have hne : (0:ℕ) ≠ oa := by omega
          rw [if_neg hne, bumpQ_other _ _ _ hne,
            bumpQ_other _ _ _ (by omega : (0:ℕ) ≠ s1.length)]
          linear_combination k * hdeq

/-- The invariant holds for the forward trace of every expression: the trace
recorder and the derivative rules of the registered primitives together
compute exact derivatives. -/
theorem trace_spec (x : ℚ) (e : AExp) : ∀ s : List (Node ℚ), 0 < s.length →
    nvQ s 0 = x → PairSpec (evalQ e x) (derivQ e x) s (traceE e x s) := by
  induction e with
  | var =>
    intro s hs hx
    unfold PairSpec
    refine ⟨rfl, extendsL_refl s, Or.inr ⟨0, rfl, Or.inl rfl, hs, hx, ?_⟩⟩
    intro S adj k hext hadj
    show (∀ j, j < s.length → j ≠ 0 →
        stepsQ S s.length (s.length - s.length) (bumpQ adj 0 k) j = adj j) ∧
      stepsQ S s.length (s.length - s.length) (bumpQ adj 0 k) 0
        = adj 0 + k * derivQ AExp.var x
    have h0 : s.length - s.length = 0 := by omega
    rw [h0]
    refine ⟨fun j h1 h2 => ?_, ?_⟩
    · exact bumpQ_other _ _ _ h2
    · show bumpQ adj 0 k 0 = adj 0 + k * derivQ AExp.var x
      rw [bumpQ_same]
      simp [derivQ]
  | const c =>
    intro s hs hx
    unfold PairSpec
    exact ⟨rfl, extendsL_refl s, Or.inl ⟨rfl, rfl, rfl⟩⟩
  | add a b iha ihb =>
    intro s hs hx
    have ha := iha s hs hx
    have hlen1 : 0 < (traceE a x s).2.length := by
      have := extendsL_length ha.2.1
      omega
    have hb := ihb (traceE a x s).2 hlen1 (by rw [nvQ_mono ha.2.1 hs]; exact hx)
    have heq : traceE (AExp.add a b) x s =
        applyBin ratOps Op.addOp ratOps.add (traceE a x s).1
          (traceE b x (traceE a x s).2).1 (traceE b x (traceE a x s).2).2 := rfl
    rw [heq]
    exact bin_spec (evalQ a x) (evalQ b x) (derivQ a x) (derivQ b x) _ _
      Op.addOp ratOps.add (fun k _ _ => k) (fun k _ _ => k)
      (fun S p q v k => rfl)
      (by intro k; simp [derivQ]; ring)
      rfl s hs (traceE a x s) ha (traceE b x (traceE a x s).2) hb
  | sub a b iha ihb =>
    intro s hs hx
    have ha := iha s hs hx
    have hlen1 : 0 < (traceE a x s).2.length := by
      have := extendsL_length ha.2.1
      omega
    have hb := ihb (traceE a x s).2 hlen1 (by rw [nvQ_mono ha.2.1 hs]; exact hx)
    have heq : traceE (AExp.sub a b) x s =
        applyBin ratOps Op.subOp ratOps.sub (traceE a x s).1
          (traceE b x (traceE a x s).2).1 (traceE b x (traceE a x s).2).2 := rfl
    rw [heq]
    exact bin_spec (evalQ a x) (evalQ b x) (derivQ a x) (derivQ b x) _ _
      Op.subOp ratOps.sub (fun k _ _ => k) (fun k _ _ => 0 - k)
      (fun S p q v k => rfl)
      (by intro k; simp [derivQ]; ring)
      rfl s hs (traceE a x s) ha (traceE b x (traceE a x s).2) hb
  | mul a b iha ihb =>
    intro s hs hx
    have ha := iha s hs hx
    have hlen1 : 0 < (traceE a x s).2.length := by
      have := extendsL_length ha.2.1
      omega
    have hb := ihb (traceE a x s).2 hlen1 (by rw [nvQ_mono ha.2.1 hs]; exact hx)
    have heq : traceE (AExp.mul a b) x s =
        applyBin ratOps Op.mulOp ratOps.mul (traceE a x s).1
          (traceE b x (traceE a x s).2).1 (traceE b x (traceE a x s).2).2 := rfl
    rw [heq]
    exact bin_spec (evalQ a x) (evalQ b x) (derivQ a x) (derivQ b x) _ _
      Op.mulOp ratOps.mul (fun k _ vb => k * vb) (fun k va _ => k * va)
      (fun S p q v k => rfl)
      (by intro k; simp [derivQ]; ring)
      rfl s hs (traceE a x s) ha (traceE b x (traceE a x s).2) hb
  | pow a n iha =>
    intro s hs hx
    have ha := iha s hs hx
    have heq : traceE (AExp.pow a n) x s =
        applyPow ratOps n (traceE a x s).1 (traceE a x s).2 := rfl
    rw [heq]
    exact pow_spec (evalQ a x) (derivQ a x) _ _ n rfl rfl
      s hs (traceE a x s) ha

/-- The engine's `grad` transform computes the mathematical derivative of
every scalar function built from the registered primitives. -/
theorem grad_correct (e : AExp) (x : ℚ) :
    gradF (exprFun e) ℚ ratOps x = derivQ e x := by
  obtain ⟨h1, h2, h3⟩ :=
    trace_spec x e [⟨Op.leaf, [], x⟩] (by simp) (by simp [nvQ, nodeValue])
  rcases h3 with ⟨hN, hS, hD⟩ | ⟨o, hN, hB, hLt, hV, bk⟩
  · rw [hD]
    simp only [gradF]
    have hN' : (exprFun e (TraceComp ℚ) (tracedOps ratOps) (varTC x)
        [(⟨Op.leaf, [], x⟩ : Node ℚ)]).1.node = none := hN
    rw [hN']
    rfl
  · simp only [gradF]
    have hN' : (exprFun e (TraceComp ℚ) (tracedOps ratOps) (varTC x)
        [(⟨Op.leaf, [], x⟩ : Node ℚ)]).1.node = some o := hN
    rw [hN']
    show stepsQ (traceE e x [⟨Op.leaf, [], x⟩]).2 0
        (traceE e x [⟨Op.leaf, [], x⟩]).2.length
        (upd (fun _ => ratOps.ofRat 0) o
          (ratOps.onesLike
            (nodeValue ratOps (traceE e x [⟨Op.leaf, [], x⟩]).2 o))) 0
      = derivQ e x
    have hOne : (1 : ℕ) + ((traceE e x [⟨Op.leaf, [], x⟩]).2.length - 1)
        = (traceE e x [⟨Op.leaf, [], x⟩]).2.length := by
      have := extendsL_length h2
      simp at this
      omega
    have hinit : upd (fun _ => ratOps.ofRat 0) o
        (ratOps.onesLike (nodeValue ratOps (traceE e x [⟨Op.leaf, [], x⟩]).2 o))
        = bumpQ (fun _ => (0 : ℚ)) o 1 := by
      funext j
      by_cases hj : j = o <;> simp [upd, bumpQ, hj, ratOps]
    rw [hinit]
    conv_lhs => rw [← hOne]
    rw [stepsQ_split _ 0 1 _, Nat.zero_add, stepsQ_one]
    have hleaf : (traceE e x [⟨Op.leaf, [], x⟩]).2[0]?
        = some ⟨Op.leaf, [], x⟩ := by
      obtain ⟨ext, hext⟩ := h2
      rw [hext]
      simp
    rw [stepNode_leaf _ 0 x hleaf]
    obtain ⟨hi, hii⟩ := bk (traceE e x [⟨Op.leaf, [], x⟩]).2 (fun _ => (0 : ℚ)) 1
      (extendsL_refl _) (fun j _ _ => rfl)
    have hlen1 : ([(⟨Op.leaf, [], x⟩ : Node ℚ)] : List (Node ℚ)).length = 1 := rfl
    rw [hlen1] at hii
    rw [hii]
    ring

/-! ### The notebook's example functions

`softmax_loss` is transcribed from the tutorial notebook.  The exponential
and logarithm are parameters (`E`, `L`): they belong to the external numeric
library, and the properties below hold for any choice. -/

/-- `np.sum` over a one-dimensional array. -/
def sumQ (l : List ℚ) : ℚ := l.foldl (fun a b => a + b) 0

/-- `np.max(x, axis=1)` for one row. -/
def rowMax : List ℚ → ℚ
  | [] => 0
  | a :: t => t.foldl max a

/-- One row of `np.exp(x - np.max(x, axis=1, keepdims=True))`. -/
def exRow (E : ℚ → ℚ) (row : List ℚ) : List ℚ :=
  row.map (fun v => E (v - rowMax row))

/-- One row of `probs` after the in-place division by the row sum. -/
def probsRow (E : ℚ → ℚ) (row : List ℚ) : List ℚ :=
  (exRow E row).map (fun v => v / sumQ (exRow E row))

/-- The `probs` matrix of `softmax_loss`. -/
def softmaxProbs (E : ℚ → ℚ) (x : List (List ℚ)) : List (List ℚ) :=
  x.map (probsRow E)

/-- `probs[np.arange(N), y][i]`: the probability of row `i`'s label. -/
def pickLabel (m : List (List ℚ)) (y : List ℕ) (i : ℕ) : ℚ :=
  (m.getD i []).getD (y.getD i 0) 0

/-- The `dx` array of `softmax_loss`: `probs` with `1` subtracted at each
row's label entry, divided by `N`. -/
def softmaxDx (E : ℚ → ℚ) (x : List (List ℚ)) (y : List ℕ) : List (List ℚ) :=
  let probs := softmaxProbs E x
  let N := x.length
  (probs.zip (List.range N)).map (fun rz =>
    (rz.1.zip (List.range rz.1.length)).map (fun vj =>
      (if vj.2 = y.getD rz.2 0 then vj.1 - 1 else vj.1) / (N : ℚ)))

/-- The notebook's `softmax_loss(x, y)`: computes `probs`, the scalar `loss`,
and the array `dx`, and then returns `loss` alone. -/
def softmax_loss (E L : ℚ → ℚ) (x : List (List ℚ)) (y : List ℕ) : ℚ :=
  let probs := softmaxProbs E x
  let N := x.length
  let loss := -(sumQ ((List.range N).map (fun i => L (pickLabel probs y i)))) / (N : ℚ)
  let dx := softmaxDx E x y
  loss

/-- The loss computation alone, with the `dx` computation removed. -/
def softmaxLossOnly (E L : ℚ → ℚ) (x : List (List ℚ)) (y : List ℕ) : ℚ :=
  let probs := softmaxProbs E x
  let N := x.length
  let loss := -(sumQ ((List.range N).map (fun i => L (pickLabel probs y i)))) / (N : ℚ)
  loss

/-- What the docstring promises: the tuple `(loss, dx)`. -/
def softmaxLossDoc (E L : ℚ → ℚ) (x : List (List ℚ)) (y : List ℕ) :
    ℚ × List (List ℚ) :=
  (softmaxLossOnly E L x y, softmaxDx E x y)

theorem foldl_max_shift (t : List ℚ) : ∀ a c : ℚ,
    List.foldl max (a + c) (t.map (fun v => v + c)) = List.foldl max a t + c := by
  induction t with
  | nil => intro a c; simp
  | cons b t ih =>
    intro a c
    simp only [List.map_cons, List.foldl_cons]
    rw [max_add_add_right a b c]
    exact ih (max a b) c

theorem rowMax_shift (row : List ℚ) (c : ℚ) (h : row ≠ []) :
    rowMax (row.map (fun v => v + c)) = rowMax row + c := by
  cases row with
  | nil => exact absurd rfl h
  | cons a t =>
    simp only [List.map_cons, rowMax]
    exact foldl_max_shift t a c

theorem exRow_shift (E : ℚ → ℚ) (c : ℚ) (row : List ℚ) :
    exRow E (row.map (fun v => v + c)) = exRow E row := by
  cases hrow : row with
  | nil => simp [exRow]
  | cons a t =>
    unfold exRow
    rw [rowMax_shift _ c (by simp), List.map_map]
    have : ((fun v => E (v - (rowMax (a :: t) + c))) ∘ (fun v => v + c))
        = fun v => E (v - rowMax (a :: t)) := by
      funext v
      simp [Function.comp, add_sub_add_right_eq_sub]
    rw [this]

theorem probsRow_shift (E : ℚ → ℚ) (c : ℚ) (row : List ℚ) :
    probsRow E (row.map (fun v => v + c)) = probsRow E row := by
  unfold probsRow
  rw [exRow_shift]

theorem softmaxProbs_shift (E : ℚ → ℚ) (c : ℚ) (x : List (List ℚ)) :
    softmaxProbs E (x.map (fun row => row.map (fun v => v + c)))
      = softmaxProbs E x := by
  unfold softmaxProbs
  rw [List.map_map]
  have : (probsRow E ∘ fun row => row.map (fun v => v + c)) = probsRow E := by
    funext row
    exact probsRow_shift E c row
  rw [this]

theorem foldl_add_eq (l : List ℚ) : ∀ a : ℚ, l.foldl (fun x y => x + y) a = a + l.sum := by
  induction l with
  | nil => intro a; simp
  | cons b t ih =>
    intro a
    simp only [List.foldl_cons, List.sum_cons, ih]
    ring

theorem sumQ_sum (l : List ℚ) : sumQ l = l.sum := by
  simp [sumQ, foldl_add_eq]

theorem sumQ_map_div (l : List ℚ) (s : ℚ) :
    sumQ (l.map (fun v => v / s)) = sumQ l / s := by
  rw [sumQ_sum, sumQ_sum]
  induction l with
  | nil => simp
  | cons a t ih =>
    simp only [List.map_cons, List.sum_cons, ih]
    ring

/-! ### The claims -/

set_option maxHeartbeats 1000000

/-- C1: For the squaring function `f(x) = x**2`, the function returned by
`grad(f)` computes `2*x`: applied to the scalar `4` it returns `8`, and
applied elementwise to the vector `[1,2,3,4]` it returns `[2,4,6,8]`. -/
theorem tutorial_foo_gradient :
    gradF fooF ℚ ratOps 4 = 8 ∧
    gradF fooF Value valOps (Value.arr [1, 2, 3, 4]) = Value.arr [2, 4, 6, 8] := by
  constructor
  · simp [gradF, fooF, tracedOps, applyPow, applyBin, ensureNode, varTC,
      runBackward, steps, stepNode, contribs, accumulate, upd, nodeValue, ratOps]
    norm_num
  · simp [gradF, fooF, tracedOps, applyPow, applyBin, ensureNode, varTC,
      runBackward, steps, stepNode, contribs, accumulate, upd, nodeValue,
      valOps, vmap2]
    norm_num

/-- C2: When the same traced value is consumed by more than one downstream
node, the backward pass adds adjoint contributions into the parent's
accumulator rather than overwriting them; in particular, for
`f(x) = x + x`, `grad(f)(x) = 2` for every `x`. -/
theorem fanout_accumulation :
    (∀ x : ℚ, gradF (fun _ ops v => ops.add v v) ℚ ratOps x = 2) ∧
    (∀ (adj : ℕ → ℚ) (p : ℕ) (c₁ c₂ : ℚ),
      accumulate ratOps adj [(p, c₁), (p, c₂)] p = adj p + c₁ + c₂) := by
  constructor
  · intro x
    show gradF (exprFun (AExp.add AExp.var AExp.var)) ℚ ratOps x = 2
    rw [grad_correct]
    norm_num [derivQ]
  · intro adj p c₁ c₂
    show bumpQ (bumpQ adj p c₁) p c₂ p = adj p + c₁ + c₂
    rw [bumpQ_same, bumpQ_same]

/-- C3: `softmax_loss` returns only the scalar loss value even though its
docstring promises a tuple: the returned value equals the loss computation
with the `dx` computation removed, i.e. the first component of the promised
`(loss, dx)` pair, so `dx` never influences the returned value. -/
theorem softmax_loss_returns_only_loss (E L : ℚ → ℚ) (x : List (List ℚ))
    (y : List ℕ) :
    softmax_loss E L x y = softmaxLossOnly E L x y ∧
    softmax_loss E L x y = (softmaxLossDoc E L x y).1 :=
  ⟨rfl, rfl⟩

/-- C4: For every pair of differentiable scalar functions `f`, `g` built from
the registered primitives and every scalar `x`, the gradient of the
composition satisfies the chain rule:
`grad(f ∘ g)(x) = grad(f)(g(x)) * grad(g)(x)`. -/
theorem chain_rule (f g : AExp) (x : ℚ) :
    gradF (fun α ops v => exprFun f α ops (exprFun g α ops v)) ℚ ratOps x =
      gradF (exprFun f) ℚ ratOps (evalQ g x) * gradF (exprFun g) ℚ ratOps x := by
  have hcomp : (fun (α : Type) (ops : Ops α) (v : α) =>
      exprFun f α ops (exprFun g α ops v)) = exprFun (subst f g) := by
    funext α ops v
    rw [exprFun_subst]
  rw [hcomp, grad_correct, grad_correct, grad_correct, derivQ_subst]

/-- C5: Nested differentiation is supported: applying `grad` twice computes
the second derivative, and for `f(x) = x**3`,
`grad(grad(f))(x) = 6*x` for every `x`. -/
theorem nested_second_derivative (x : ℚ) :
    gradF (gradF (fun _ ops v => ops.pow v 3)) ℚ ratOps x = 6 * x := by
  simp [gradF, tracedOps, applyPow, applyBin, ensureNode, varTC, constTC,
    runBackward, steps, stepNode, contribs, accumulate, upd, nodeValue, ratOps]
  first
  | ring1
  | norm_num

/-- C6: When the wrapped function's result is not a traced value (the
targeted argument did not influence the output through any primitive), the
grad-wrapped function returns a zero-valued gradient of the same shape as the
targeted argument rather than raising an error. -/
theorem disconnected_zero_gradient (F : (β : Type) → Ops β → β → β → β)
    (x y : Value) (h : (runForward2 F Value valOps x y).1.node = none) :
    gradF2 F Value valOps x y = valOps.zeroLike x := by
  simp only [gradF2]
  rw [h]

/-- Witness for C6: `grad(lambda x, y: y)(x, 0)` with `x = [5, 7]` returns
the zero array of `x`'s shape. -/
theorem disconnected_zero_gradient_witness :
    gradF2 (fun _ _ _ w => w) Value valOps (Value.arr [5, 7]) (Value.scalar 0)
      = Value.arr [0, 0] :=
  (disconnected_zero_gradient (fun _ _ _ w => w) (Value.arr [5, 7])
    (Value.scalar 0) rfl).trans rfl

/-- C7: In `backward(trace, seed)`, when the output is a true scalar the seed
defaults to `1` (the result agrees with explicitly seeding `1`); when the
output is non-scalar and no explicit seed is supplied, `backward` fails with
`NonScalarOutputWithoutSeed`; with an explicitly shaped seed it succeeds. -/
theorem backward_seed_policy (nodes : List (Node Value)) (out : ℕ) :
    (∀ q : ℚ, nodeValue valOps nodes out = Value.scalar q →
      backwardE nodes out none = backwardE nodes out (some (Value.scalar 1))) ∧
    (∀ l : List ℚ, nodeValue valOps nodes out = Value.arr l →
      backwardE nodes out none
        = Except.error EngineError.nonScalarOutputWithoutSeed) ∧
    (∀ sd : Value, ∃ adj, backwardE nodes out (some sd) = Except.ok adj) := by
  refine ⟨?_, ?_, fun sd => ⟨_, rfl⟩⟩
  · intro q hq
    unfold backwardE
    rw [hq]
  · intro l hl
    unfold backwardE
    rw [hl]

/-- Witness for C7: a trace whose output node holds an array fails without an
explicit seed, and an empty trace with a scalar default-seeds to `1`. -/
theorem backward_seed_policy_witness :
    backwardE [⟨Op.leaf, [], Value.arr [1, 2]⟩] 0 none
      = Except.error EngineError.nonScalarOutputWithoutSeed ∧
    backwardE [] 0 none = backwardE [] 0 (some (Value.scalar 1)) :=
  ⟨(backward_seed_policy _ 0).2.1 [1, 2] (by simp [nodeValue]),
   (backward_seed_policy _ 0).1 0 (by simp [nodeValue, valOps])⟩

/-- C8: When the wrapped function raises during forward evaluation, the
grad-wrapped function propagates that exception unchanged — the result is
exactly the error, and no partial trace or gradient is returned. -/
theorem forward_error_propagation {ε : Type}
    (F : (β : Type) → Ops β → β → Except ε β) (α : Type) (ops : Ops α)
    (x : α) (e : ε)
    (h : F (TraceComp α) (tracedOps ops) (varTC x) = Except.error e) :
    gradFE F α ops x = Except.error e := by
  unfold gradFE
  rw [h]

/-- Witness for C8: a function that raises `7` propagates `7` through the
grad wrapper unchanged. -/
theorem forward_error_propagation_witness :
    gradFE (fun _ _ _ => Except.error 7) ℚ ratOps 4
      = Except.error (7 : ℕ) :=
  forward_error_propagation (fun _ _ _ => Except.error 7) ℚ ratOps 4 7 rfl

/-- C9: Operations on plain values with no traced operands execute as
ordinary numeric computation with no graph side effects: each lifted
primitive leaves the node list untouched and returns an untraced plain
result, and `foo(4)` evaluated outside any grad wrapper returns `16` while
recording no trace nodes even inside a trace context. -/
theorem plain_values_no_trace (α : Type) (ops : Ops α) (a b : α) (n : ℕ)
    (s : List (Node α)) (s2 : List (Node ℚ)) :
    (tracedOps ops).add (constTC a) (constTC b) s = (⟨ops.add a b, none⟩, s) ∧
    (tracedOps ops).sub (constTC a) (constTC b) s = (⟨ops.sub a b, none⟩, s) ∧
    (tracedOps ops).mul (constTC a) (constTC b) s = (⟨ops.mul a b, none⟩, s) ∧
    (tracedOps ops).pow (constTC a) n s = (⟨ops.pow a n, none⟩, s) ∧
    fooF ℚ ratOps 4 = 16 ∧
    fooF (TraceComp ℚ) (tracedOps ratOps) (constTC 4) s2 = (⟨16, none⟩, s2) := by
  refine ⟨rfl, rfl, rfl, rfl, by norm_num [fooF, ratOps], ?_⟩
  show applyPow ratOps 2 ⟨4, none⟩ s2 = (⟨16, none⟩, s2)
  norm_num [applyPow, ratOps]

/-- C10: `softmax_loss` is shift-invariant — adding a constant `c` to every
score leaves the loss unchanged, because the probabilities are computed from
exponentials normalized after subtracting the per-row maximum; and each row
of `probs` sums to `1` (whenever its normalizing denominator is nonzero). -/
theorem softmax_shift_invariance (E L : ℚ → ℚ) (c : ℚ) (x : List (List ℚ))
    (y : List ℕ) :
    softmax_loss E L (x.map (fun row => row.map (fun v => v + c))) y
      = softmax_loss E L x y ∧
    (∀ row : List ℚ, sumQ (exRow E row) ≠ 0 → sumQ (probsRow E row) = 1) := by
  constructor
  · simp only [softmax_loss, softmaxProbs_shift, List.length_map]
  · intro row h
    unfold probsRow
    rw [sumQ_map_div, div_self h]

/-- Witness for C10: a concrete row with nonzero denominator sums to `1`,
and shifting a concrete score matrix by `5` leaves the loss unchanged. -/
theorem softmax_shift_invariance_witness :
    sumQ (probsRow (fun v => v) [1, 2]) = 1 ∧
    softmax_loss (fun v => v) (fun v => v)
        ([[1, 2]].map (fun row => row.map (fun v => v + 5))) [0]
      = softmax_loss (fun v => v) (fun v => v) [[1, 2]] [0] :=
  ⟨(softmax_shift_invariance (fun v => v) (fun v => v) 0 [] []).2 [1, 2]
      (by norm_num [sumQ, exRow, rowMax, List.foldl, max_def]),
   (softmax_shift_invariance (fun v => v) (fun v => v) 5 [[1, 2]] [0]).1⟩

end MinpyAD
